import Mathlib

/-
Shallow embedding of the hyperliquid-rust-sdk-utils repository.

Conventions of the embedding:
* `f64` values are modelled as exact rationals (`ℚ`).  The Rust code rounds a
  value to `n` decimal places by `format!` / `parse` round-tripping; this is
  modelled by `roundToDecimals`, which rounds `p * 10^n` to the nearest
  integer and divides back.  (Rust resolves ties on the binary value to even;
  the model uses `round`, i.e. ties away from the half line upward.  No claim
  below depends on a tie.)
* `price.abs().log10().floor() as i32` is modelled by `Int.log 10 |price|`,
  which for nonzero rationals is exactly the floor of the base-10 logarithm.
  At `price = 0` the Rust expression instead yields `i32::MIN` (the
  float-to-int cast saturates on `-inf`), after which
  `significant_digits - order_of_magnitude - 1` overflows `i32` — an abort in
  the same checked builds; `round_price` therefore guards the zero case
  explicitly and returns `Option.none` there.
* `u16` subtraction is checked arithmetic in Rust (it aborts on underflow in
  checked builds), and `assert!` aborts on a failed check; both are modelled
  by returning `Option.none`.  Functions that can abort therefore return
  `Option`.
* Division of `f64` by zero produces a non-finite value; where a claim is
  about that behaviour (`get_asset_denom_size`), values are wrapped in `FVal`,
  a partial model of `f64` that carries the non-finite points.  `format!` of a
  non-finite value followed by `parse` reproduces the same non-finite value,
  which is what the Rust standard library does.
* Strings arriving from the wire are parsed with `str::parse::<f64>`; a parse
  result is modelled as `Option ℚ` (`Option.none` for an unparsable string),
  so the code that reacts to parse failures can be embedded faithfully
  without a model of decimal string syntax.
-/

/-- Rounding a rational to `n` decimal places, the model of Rust
`format!("{:.*}", n, x).parse::<f64>().unwrap()` on finite values. -/
def roundToDecimals (p : ℚ) (n : ℕ) : ℚ :=
  ((round (p * 10 ^ n) : ℤ) : ℚ) / 10 ^ n

/-- From src/types/meta.rs: per-token descriptor of a spot asset. -/
structure SpotAssetMeta where
  sz_decimals : ℕ
  wei_decimals : ℕ
  name : String
  index : ℕ
deriving DecidableEq

/-- From src/types/meta.rs: the tagged per-instrument metadata. -/
inductive Meta where
  | spot (name : String) (quote : SpotAssetMeta) (base : SpotAssetMeta)
  | perp (name : String) (sz_decimals : ℕ) (max_leverage : ℕ)
      (only_isolated : Option Bool) (is_delisted : Option Bool)
deriving DecidableEq

def Meta.get_sz_decimals : Meta → ℕ
  | Meta.spot _ quote _ => quote.sz_decimals
  | Meta.perp _ sz _ _ _ => sz

def Meta.is_spot : Meta → Bool
  | Meta.spot _ _ _ => true
  | _ => false

def Meta.is_perp : Meta → Bool
  | Meta.perp _ _ _ _ _ => true
  | _ => false

/-- From src/types/price.rs: the tagged price value. -/
inductive Price where
  | none
  | spot (price : ℚ) (meta : Meta)
  | perp (price : ℚ) (meta : Meta)
deriving DecidableEq

/-- From src/types/price.rs, `Price::round_price`.  Two abort points of the
checked builds are modelled as `Option.none`: the checked `u16` subtraction
`max_decimals - sz_decimals` underflows when `sz_decimals > max_decimals`
(it runs first, on line 59 of the source), and for `price = 0` the
saturating cast of `log10(0).floor()` yields `i32::MIN`, so
`significant_digits - order_of_magnitude - 1` overflows `i32` (line 62). -/
def Price.round_price (price : ℚ) (max_decimals sz_decimals : ℕ) : Option ℚ :=
  if sz_decimals ≤ max_decimals then
    if price = 0 then Option.none
    else
      let order_of_magnitude : ℤ := Int.log 10 |price|
      let max_decimal_places : ℤ := ((max_decimals - sz_decimals : ℕ) : ℤ)
      let needed_decimal_places : ℤ := max 0 (5 - order_of_magnitude - 1)
      let actual_decimal_places : ℤ := min needed_decimal_places max_decimal_places
      some (roundToDecimals price actual_decimal_places.toNat)
  else
    Option.none

/-- From src/types/price.rs, `Price::new_spot`; the `assert!(meta.is_spot())`
is modelled by the outer guard. -/
def Price.new_spot (price : ℚ) (meta : Meta) : Option Price :=
  if meta.is_spot = true then
    if price = 0 then some (Price.spot price meta)
    else (Price.round_price price 8 meta.get_sz_decimals).map fun r => Price.spot r meta
  else Option.none

/-- From src/types/price.rs, `Price::new_perp`. -/
def Price.new_perp (price : ℚ) (meta : Meta) : Option Price :=
  if meta.is_perp = true then
    if price = 0 then some (Price.perp price meta)
    else (Price.round_price price 6 meta.get_sz_decimals).map fun r => Price.perp r meta
  else Option.none

/-- From src/types/price.rs, `Price::get_value`. -/
def Price.get_value : Price → ℚ
  | Price.spot p _ => p
  | Price.perp p _ => p
  | Price.none => 0

/-- From src/types/price.rs, `Price::get_meta` (it aborts on `Price::None`,
modelled by `Option.none`). -/
def Price.get_meta : Price → Option Meta
  | Price.none => Option.none
  | Price.spot _ m => some m
  | Price.perp _ m => some m

/-- The variant tag of a `Price`, used to state frame conditions. -/
inductive PriceTag where
  | noneTag
  | spotTag
  | perpTag
deriving DecidableEq

def Price.tag : Price → PriceTag
  | Price.none => PriceTag.noneTag
  | Price.spot _ _ => PriceTag.spotTag
  | Price.perp _ _ => PriceTag.perpTag

/-- From src/types/price.rs, `Price::update_price`: rounds the new raw price
with the variant cap and stores it; `Price::None` is left unchanged. -/
def Price.update_price : Price → ℚ → Option Price
  | Price.spot _ meta, new_price =>
      (Price.round_price new_price 8 meta.get_sz_decimals).map fun r => Price.spot r meta
  | Price.perp _ meta, new_price =>
      (Price.round_price new_price 6 meta.get_sz_decimals).map fun r => Price.perp r meta
  | Price.none, _ => some Price.none

/-- From src/types/price.rs, `Price::from_new_price`. -/
def Price.from_new_price : Price → ℚ → Option Price
  | Price.spot _ meta, new_price => Price.new_spot new_price meta
  | Price.perp _ meta, new_price => Price.new_perp new_price meta
  | Price.none, _ => some Price.none

/-- Partial model of an `f64`: a finite rational or one of the non-finite
points. -/
inductive FVal where
  | finite (q : ℚ)
  | posInf
  | negInf
  | nan
deriving DecidableEq

def FVal.isFinite : FVal → Bool
  | FVal.finite _ => true
  | _ => false

/-- IEEE-754 division of a finite value by a finite value (`+0` divisor). -/
def fdiv (a b : ℚ) : FVal :=
  if b = 0 then
    if a = 0 then FVal.nan else if 0 < a then FVal.posInf else FVal.negInf
  else FVal.finite (a / b)

/-- From src/types/price.rs, `Price::get_true_size`: formats the size with
the instrument's `sz_decimals`.  `format!`/`parse` of a non-finite value
reproduces it; `Price::None` yields `0.0` whatever the input is. -/
def Price.get_true_size (p : Price) (size : FVal) : FVal :=
  match p with
  | Price.none => FVal.finite 0
  | Price.spot _ meta =>
      match size with
      | FVal.finite q => FVal.finite (roundToDecimals q meta.get_sz_decimals)
      | s => s
  | Price.perp _ meta =>
      match size with
      | FVal.finite q => FVal.finite (roundToDecimals q meta.get_sz_decimals)
      | s => s

/-- From src/types/price.rs, `Price::get_asset_denom_size`:
`get_true_size(size / get_value())`. -/
def Price.get_asset_denom_size (p : Price) (size : ℚ) : FVal :=
  p.get_true_size (fdiv size p.get_value)

/-- From src/prices.rs: the shapes of feed messages that
`Prices::get_all_prices` distinguishes.  `AllMids` carries the mids map with
each value string replaced by its parse result. -/
inductive Message where
  | NoData
  | HyperliquidError (err : String)
  | AllMids (mids : List (String × Option ℚ))
  | Other (desc : String)

/-- From src/prices.rs, `Prices::get_all_prices`: one `recv` on the price
channel (`Option Message`; `Option.none` is a closed channel) classified into
a batch or an error.  Unparsable mid strings default to `0.0`
(`unwrap_or(0.0)`). -/
def Prices.get_all_prices : Option Message → Except String (List (String × ℚ))
  | some Message.NoData => Except.error "No data found"
  | some (Message.HyperliquidError _) => Except.error "Hyperliquid error found"
  | some (Message.AllMids mids) => Except.ok (mids.map fun kv => (kv.1, kv.2.getD 0))
  | some (Message.Other _) => Except.ok []
  | Option.none => Except.ok []

/-- One streaming iteration of `Prices::start_sending` around the `?` on
`get_all_prices`: a classifier error ends the iteration (the supervisor task
then restarts the pipeline), otherwise the table-update step `upd` runs on
the batch.  `upd` models `spot_price_data.update` / `perps_price_data.update`,
whose defining code is not part of this snapshot; the step is parameterized
over it, which suffices because the error path returns before `upd` is
applied. -/
def stepStreaming (upd : List (String × Price) → List (String × ℚ) → List (String × Price))
    (msg : Option Message) (table : List (String × Price)) :
    Except String (List (String × Price)) :=
  (Prices.get_all_prices msg).map (upd table)

/-- From src/types/orderbook.rs: one price level. -/
structure OrderbookLevel where
  price : ℚ
  size : ℚ
deriving DecidableEq

/-- From src/types/orderbook.rs: the book for one coin. -/
structure Orderbook where
  bids : List OrderbookLevel
  asks : List OrderbookLevel
  coin : String
deriving DecidableEq

/-- From src/types/orderbook.rs, `Orderbook::update_from_stream`. -/
def Orderbook.update_from_stream (ob : Orderbook) (bids asks : List (ℚ × ℚ)) : Orderbook :=
  { ob with
    bids := bids.map fun ps => OrderbookLevel.mk ps.1 ps.2
    asks := asks.map fun ps => OrderbookLevel.mk ps.1 ps.2 }

/-- A raw level of an L2 book message: the parse results of its price and
size strings. -/
structure RawLevel where
  px : Option ℚ
  sz : Option ℚ

/-- From src/orderbooks.rs, `OrderbookStream::start_sending`: the
`filter_map` that keeps exactly the levels whose two strings both parse. -/
def parseLevels (ls : List RawLevel) : List (ℚ × ℚ) :=
  ls.filterMap fun l => l.px.bind fun p => l.sz.map fun s => (p, s)

/-- From src/orderbooks.rs, the handling of one `Message::L2Book`: parse the
two sides and replace the book. -/
def processL2Book (ob : Orderbook) (bidLs askLs : List RawLevel) : Orderbook :=
  ob.update_from_stream (parseLevels bidLs) (parseLevels askLs)

/-- A rational has at most five significant digits if it is an integer of
absolute value at most `10^5` times a power of ten. -/
def HasAtMostFiveSigDigits (r : ℚ) : Prop :=
  ∃ k e : ℤ, r = (k : ℚ) * 10 ^ e ∧ k.natAbs ≤ 10 ^ 5

/-- The perpetual metadata used by src/bin/round_price_example.rs. -/
def btcPerpMeta : Meta :=
  Meta.perp "BTC" 5 100 Option.none Option.none

/-- A sample spot metadata value (quote token with three size decimals). -/
def spotMetaEx : Meta :=
  Meta.spot "@2" (SpotAssetMeta.mk 3 8 "USDC" 0) (SpotAssetMeta.mk 0 5 "PURR" 1)

lemma ten_pow_eq_zpow (n : ℕ) : ((10:ℚ) ^ n) = (10:ℚ) ^ (n : ℤ) :=
  (zpow_natCast 10 n).symm

lemma zpow_toNat_cast {z : ℤ} (hz : 0 ≤ z) :
    ((10:ℚ)) ^ z = ((10 ^ z.toNat : ℤ) : ℚ) := by
  conv_lhs => rw [← Int.toNat_of_nonneg hz]
  rw [zpow_natCast]
  push_cast
  ring

lemma zpow_ten_nonneg_exp {z k : ℤ} (h : ((k:ℚ)) = (10:ℚ) ^ z) : 0 ≤ z := by
  by_contra hz
  push_neg at hz
  have h1 : (10:ℚ) ^ z ≤ (10:ℚ) ^ (-1 : ℤ) :=
    zpow_le_zpow_right₀ (by norm_num) (by omega)
  have h2 : (0:ℚ) < (10:ℚ) ^ z := zpow_pos (by norm_num) z
  have hk1 : (k:ℚ) < 1 := by
    calc (k:ℚ) = (10:ℚ) ^ z := h
    _ ≤ (10:ℚ) ^ (-1 : ℤ) := h1
    _ < 1 := by norm_num
  have hk0 : (0:ℚ) < (k:ℚ) := h ▸ h2
  have : (0:ℤ) < k := by exact_mod_cast hk0
  have : k < 1 := by exact_mod_cast hk1
  omega

lemma int_log10_eq {q : ℚ} (z : ℤ) (hq : 0 < q)
    (h1 : (10:ℚ) ^ z ≤ q) (h2 : q < (10:ℚ) ^ (z + 1)) :
    Int.log 10 q = z := by
  have hle : z ≤ Int.log 10 q := (Int.zpow_le_iff_le_log (by norm_num) hq).mp h1
  have hlt : Int.log 10 q < z + 1 := (Int.lt_zpow_iff_log_lt (by norm_num) hq).mp h2
  omega

lemma round_le_of_lt_intCast {x : ℚ} {N : ℤ} (h : x < (N:ℚ)) : round x ≤ N := by
  rw [round_eq]
  have h1 : ((⌊x + 1/2⌋ : ℤ) : ℚ) ≤ x + 1/2 := Int.floor_le _
  have h2 : ((⌊x + 1/2⌋ : ℤ) : ℚ) < ((N + 1 : ℤ) : ℚ) := by
    push_cast
    linarith
  have := Int.cast_lt.mp h2
  omega

lemma intCast_le_round {x : ℚ} {N : ℤ} (h : (N:ℚ) ≤ x) : N ≤ round x := by
  rw [round_eq]
  exact Int.le_floor.mpr (by linarith)

lemma round_nonneg_of_nonneg {x : ℚ} (h : 0 ≤ x) : 0 ≤ round x :=
  intCast_le_round (by exact_mod_cast h)

lemma roundToDecimals_mul_pow (p : ℚ) (n : ℕ) :
    roundToDecimals p n * 10 ^ n = ((round (p * 10 ^ n) : ℤ) : ℚ) := by
  unfold roundToDecimals
  field_simp

lemma roundToDecimals_zero_left (n : ℕ) : roundToDecimals 0 n = 0 := by
  unfold roundToDecimals
  norm_num

lemma roundToDecimals_nonneg {p : ℚ} (hp : 0 ≤ p) (n : ℕ) :
    0 ≤ roundToDecimals p n := by
  unfold roundToDecimals
  apply div_nonneg _ (by positivity)
  have : 0 ≤ round (p * 10 ^ n) :=
    round_nonneg_of_nonneg (by positivity)
  exact_mod_cast this

lemma roundToDecimals_eq_self {p : ℚ} {n : ℕ} (k : ℤ)
    (hk : p * 10 ^ n = (k : ℚ)) : roundToDecimals p n = p := by
  unfold roundToDecimals
  rw [hk, round_intCast, ← hk]
  field_simp

/-- Magnitude of a rounded positive value: it is zero, or it stays within the
decade of the input (possibly landing exactly on the upper power of ten). -/
lemma roundToDecimals_mag {p : ℚ} (hp : 0 < p) (n : ℕ) :
    roundToDecimals p n = 0 ∨
      ((10:ℚ) ^ Int.log 10 p ≤ roundToDecimals p n ∧
        roundToDecimals p n ≤ (10:ℚ) ^ (Int.log 10 p + 1)) := by
  set m := Int.log 10 p with hm
  have hten : (0:ℚ) < 10 := by norm_num
  have hpow : (0:ℚ) < (10:ℚ) ^ (n:ℕ) := by positivity
  have h1 : (10:ℚ) ^ m ≤ p := Int.zpow_log_le_self (by norm_num) hp
  have h2 : p < (10:ℚ) ^ (m + 1) := Int.lt_zpow_succ_log_self (by norm_num) p
  have hx1 : (10:ℚ) ^ (m + (n:ℤ)) ≤ p * 10 ^ n := by
    rw [zpow_add₀ (by norm_num : (10:ℚ) ≠ 0), ← ten_pow_eq_zpow]
    exact mul_le_mul_of_nonneg_right h1 (le_of_lt hpow)
  have hx2 : p * 10 ^ n < (10:ℚ) ^ (m + 1 + (n:ℤ)) := by
    rw [zpow_add₀ (by norm_num : (10:ℚ) ≠ 0), ← ten_pow_eq_zpow]
    exact mul_lt_mul_of_pos_right h2 hpow
  rcases le_or_lt 0 (m + (n:ℤ)) with hmn | hmn
  · -- the rounded mantissa stays within the decade
    right
    have hmn1 : 0 ≤ m + 1 + (n:ℤ) := by omega
    have hN1 : (10:ℚ) ^ (m + (n:ℤ)) = ((10 ^ (m + (n:ℤ)).toNat : ℤ) : ℚ) :=
      zpow_toNat_cast hmn
    have hN2 : (10:ℚ) ^ (m + 1 + (n:ℤ)) = ((10 ^ (m + 1 + (n:ℤ)).toNat : ℤ) : ℚ) :=
      zpow_toNat_cast hmn1
    have hKlo : (10 ^ (m + (n:ℤ)).toNat : ℤ) ≤ round (p * 10 ^ n) :=
      intCast_le_round (by rw [← hN1]; exact hx1)
    have hKhi : round (p * 10 ^ n) ≤ (10 ^ (m + 1 + (n:ℤ)).toNat : ℤ) :=
      round_le_of_lt_intCast (by rw [← hN2]; exact hx2)
    constructor
    · unfold roundToDecimals
      rw [le_div_iff₀ hpow]
      calc (10:ℚ) ^ m * 10 ^ n = (10:ℚ) ^ (m + (n:ℤ)) := by
            rw [zpow_add₀ (by norm_num : (10:ℚ) ≠ 0), ← ten_pow_eq_zpow]
        _ = ((10 ^ (m + (n:ℤ)).toNat : ℤ) : ℚ) := hN1
        _ ≤ ((round (p * 10 ^ n) : ℤ) : ℚ) := by exact_mod_cast hKlo
    · unfold roundToDecimals
      rw [div_le_iff₀ hpow]
      calc ((round (p * 10 ^ n) : ℤ) : ℚ)
          ≤ ((10 ^ (m + 1 + (n:ℤ)).toNat : ℤ) : ℚ) := by exact_mod_cast hKhi
        _ = (10:ℚ) ^ (m + 1 + (n:ℤ)) := hN2.symm
        _ = (10:ℚ) ^ (m + 1) * 10 ^ n := by
            rw [zpow_add₀ (by norm_num : (10:ℚ) ≠ 0), ← ten_pow_eq_zpow]
  rcases le_or_lt 0 (m + 1 + (n:ℤ)) with hmn1 | hmn1
  · -- the scaled value lies in [1/10, 1): the rounding is 0 or 1
    have hmn0 : m + (n:ℤ) = -1 := by omega
    have hN2 : (10:ℚ) ^ (m + 1 + (n:ℤ)) = ((10 ^ (m + 1 + (n:ℤ)).toNat : ℤ) : ℚ) :=
      zpow_toNat_cast hmn1
    have hexp : (m + 1 + (n:ℤ)).toNat = 0 := by omega
    have hKhi : round (p * 10 ^ n) ≤ (10 ^ (m + 1 + (n:ℤ)).toNat : ℤ) :=
      round_le_of_lt_intCast (by rw [← hN2]; exact hx2)
    rw [hexp, pow_zero] at hKhi
    have hK0 : 0 ≤ round (p * 10 ^ n) := round_nonneg_of_nonneg (by positivity)
    have hK01 : round (p * 10 ^ n) = 0 ∨ round (p * 10 ^ n) = 1 := by omega
    rcases hK01 with hK | hK
    · left
      unfold roundToDecimals
      rw [hK]
      norm_num
    · right
      have hr : roundToDecimals p n = (10:ℚ) ^ (-(n:ℤ)) := by
        unfold roundToDecimals
        rw [hK, zpow_neg, ← ten_pow_eq_zpow]
        push_cast
        ring
      rw [hr]
      constructor
      · exact zpow_le_zpow_right₀ (by norm_num) (by omega)
      · exact zpow_le_zpow_right₀ (by norm_num) (by omega)
  · -- the scaled value is below 1/10: the rounding is 0
    left
    have hsmall : p * 10 ^ n < 1 / 10 := by
      have h3 : (10:ℚ) ^ (m + 1 + (n:ℤ)) ≤ (10:ℚ) ^ (-1 : ℤ) :=
        zpow_le_zpow_right₀ (by norm_num) (by omega)
      have h5 := lt_of_lt_of_le hx2 h3
      have h4 : ((10:ℚ)) ^ (-1 : ℤ) = 1 / 10 := by norm_num
      rwa [h4] at h5
    have hK : round (p * 10 ^ n) = 0 := by
      rw [round_eq, Int.floor_eq_zero_iff, Set.mem_Ico]
      constructor
      · positivity
      · linarith
    unfold roundToDecimals
    rw [hK]
    norm_num

/-- Unfolding of `Price.round_price` when the `u16` subtraction is in range
and the raw price is nonzero (so neither abort point fires). -/
lemma round_price_eq_some {p : ℚ} {c s : ℕ} (hs : s ≤ c) (hp : p ≠ 0) :
    Price.round_price p c s =
      some (roundToDecimals p
        ((min (max 0 (5 - Int.log 10 |p| - 1)) (((c - s : ℕ) : ℤ))).toNat)) := by
  rw [Price.round_price, if_pos hs, if_neg hp]

/-- Abort of `Price.round_price` at a zero raw price (the `i32` overflow of
`5 - i32::MIN - 1` after the saturating cast of `log10(0).floor()`). -/
lemma round_price_zero (c s : ℕ) : Price.round_price 0 c s = Option.none := by
  rw [Price.round_price]
  rcases le_or_lt s c with hs | hs
  · rw [if_pos hs, if_pos rfl]
  · rw [if_neg (by omega)]

/-- C5 (amended): rounding is idempotent on results that are not the zero
collapse: for `p > 0`, `s ≤ c`, if `round_price` yields a nonzero value,
that value is a fixed point of the same rounding. -/
theorem c5_round_idempotent (p r : ℚ) (c s : ℕ) (hp : 0 < p) (hr0 : r ≠ 0)
    (h : Price.round_price p c s = some r) :
    Price.round_price r c s = some r := by
  have hs : s ≤ c := by
    by_contra hns
    rw [Price.round_price, if_neg hns] at h
    exact Option.noConfusion h
  rw [round_price_eq_some hs (ne_of_gt hp), abs_of_pos hp] at h
  set cap : ℤ := ((c - s : ℕ) : ℤ) with hcap
  have hcap0 : 0 ≤ cap := Int.natCast_nonneg _
  set m : ℤ := Int.log 10 p with hm
  set dz : ℤ := min (max 0 (5 - m - 1)) cap with hdz
  have hdz0 : 0 ≤ dz := by omega
  have hdcast : ((dz.toNat : ℕ) : ℤ) = dz := Int.toNat_of_nonneg hdz0
  have hr : roundToDecimals p dz.toNat = r := Option.some.inj h
  rcases roundToDecimals_mag hp dz.toNat with h0 | ⟨hlo, hhi⟩
  · -- the first rounding collapsed to zero: excluded by the hypothesis
    rw [hr] at h0
    exact absurd h0 hr0
  · rw [hr] at hlo hhi
    have hrpos : 0 < r := lt_of_lt_of_le (zpow_pos (by norm_num) m) hlo
    have hm_le : m ≤ Int.log 10 r := (Int.zpow_le_iff_le_log (by norm_num) hrpos).mp hlo
    have hm_lt : Int.log 10 r < m + 2 := by
      apply (Int.lt_zpow_iff_log_lt (by norm_num) hrpos).mp
      exact lt_of_le_of_lt hhi (zpow_lt_zpow_right₀ (by norm_num) (by omega))
    have hK : roundToDecimals p dz.toNat * 10 ^ dz.toNat =
        ((round (p * 10 ^ dz.toNat) : ℤ) : ℚ) := roundToDecimals_mul_pow p dz.toNat
    rw [hr] at hK
    rw [round_price_eq_some hs hr0, abs_of_pos hrpos]
    rcases (by omega : Int.log 10 r = m ∨ Int.log 10 r = m + 1) with hEq | hEq
    · -- same decade: the same number of decimal places is chosen again
      rw [hEq]
      exact congrArg some (roundToDecimals_eq_self _ hK)
    · -- the rounding landed on the next power of ten
      have hr_pow : r = (10:ℚ) ^ (m + 1) := by
        apply le_antisymm hhi
        calc (10:ℚ) ^ (m + 1) = (10:ℚ) ^ Int.log 10 r := by rw [hEq]
          _ ≤ r := Int.zpow_log_le_self (by norm_num) hrpos
      have hKpow : ((round (p * 10 ^ dz.toNat) : ℤ) : ℚ) = (10:ℚ) ^ (m + 1 + dz) := by
        rw [← hK, hr_pow, ten_pow_eq_zpow, hdcast, ← zpow_add₀ (by norm_num : (10:ℚ) ≠ 0)]
      have hexp0 : 0 ≤ m + 1 + dz := zpow_ten_nonneg_exp hKpow
      rw [hEq]
      set dz2 : ℤ := min (max 0 (5 - (m + 1) - 1)) cap with hdz2
      have hdz20 : 0 ≤ dz2 := by omega
      have hd2cast : ((dz2.toNat : ℕ) : ℤ) = dz2 := Int.toNat_of_nonneg hdz20
      have hexp2 : 0 ≤ m + 1 + dz2 := by omega
      apply congrArg some
      apply roundToDecimals_eq_self (10 ^ (m + 1 + dz2).toNat)
      rw [hr_pow, ten_pow_eq_zpow, hd2cast, ← zpow_add₀ (by norm_num : (10:ℚ) ≠ 0)]
      exact zpow_toNat_cast hexp2

lemma int_log10_two : Int.log 10 (2:ℚ) = 0 :=
  int_log10_eq 0 (by norm_num) (by norm_num) (by norm_num)

lemma int_log10_seven : Int.log 10 (7:ℚ) = 0 :=
  int_log10_eq 0 (by norm_num) (by norm_num) (by norm_num)

lemma int_log10_e : Int.log 10 (2.718281:ℚ) = 0 :=
  int_log10_eq 0 (by norm_num) (by norm_num) (by norm_num)

lemma int_log10_btc : Int.log 10 (103020.32323:ℚ) = 5 :=
  int_log10_eq 5 (by norm_num) (by norm_num) (by norm_num)

lemma int_log10_p04 : Int.log 10 (0.04:ℚ) = -2 :=
  int_log10_eq (-2) (by norm_num) (by norm_num) (by norm_num)

/-- Concrete evaluation: the example price of src/bin/round_price_example.rs
is rounded to zero decimal places (`needed = 5 - 5 - 1` is clamped to 0,
which is below the cap `6 - 5 = 1`). -/
lemma round_price_btc_result : Price.round_price (103020.32323:ℚ) 6 5 = some 103020 := by
  rw [round_price_eq_some (by omega) (by norm_num), abs_of_pos (by norm_num), int_log10_btc]
  show some (roundToDecimals (103020.32323:ℚ) 0) = some 103020
  unfold roundToDecimals
  rw [round_eq]
  norm_num

lemma new_perp_btc_result :
    Price.new_perp (103020.32323:ℚ) btcPerpMeta = some (Price.perp 103020 btcPerpMeta) := by
  simp only [Price.new_perp]
  rw [if_pos (show btcPerpMeta.is_perp = true from rfl),
    if_neg (show ¬(103020.32323:ℚ) = 0 by norm_num)]
  rw [show Meta.get_sz_decimals btcPerpMeta = 5 from rfl, round_price_btc_result]
  rfl

/-- C10: `update_price` applied to the no-price variant is a no-op: the
value stays exactly `Price.none` for every new raw price, so the update
operation never moves a price out of (or into) the no-price variant. -/
theorem c10_update_none_noop (new_price : ℚ) :
    Price.update_price Price.none new_price = some Price.none := rfl

/-- C4 counterexample: `round_price(0.0, c, s)` never returns `0.0` in the
checked builds: at `(0, 1)` the `u16` subtraction underflows, and at
`(8, 3)` (cap in range) the `i32` overflow after the saturating cast of
`log10(0)` aborts instead. -/
theorem c4_counterexample :
    Price.round_price (0:ℚ) 0 1 = Option.none ∧
    Price.round_price (0:ℚ) 8 3 = Option.none ∧
    Price.round_price (0:ℚ) 8 3 ≠ some 0 := by
  refine ⟨round_price_zero 0 1, round_price_zero 8 3, ?_⟩
  rw [round_price_zero]
  exact fun hcon => Option.noConfusion hcon

/-- C4 (amended): the constructors store a raw `0.0` unrounded, for any
metadata of the matching variant with no constraint on its size decimals,
because they return before `round_price` is invoked; `round_price(0.0, c, s)`
itself never returns (for any `c`, `s`) in checked builds — the `u16`
subtraction underflows when `s > c`, and otherwise
`5 - order_of_magnitude - 1` overflows `i32` after the saturating cast of
`log10(0).floor()` — which is exactly why the constructors special-case the
zero sentinel. -/
theorem c4_zero_sentinel :
    (∀ meta : Meta, meta.is_spot = true → Price.new_spot 0 meta = some (Price.spot 0 meta)) ∧
    (∀ meta : Meta, meta.is_perp = true → Price.new_perp 0 meta = some (Price.perp 0 meta)) ∧
    (∀ c s : ℕ, Price.round_price 0 c s = Option.none) := by
  refine ⟨?_, ?_, round_price_zero⟩
  · intro meta hmeta
    simp [Price.new_spot, hmeta]
  · intro meta hmeta
    simp [Price.new_perp, hmeta]

/-- C4 witness: the amended statement at concrete inputs. -/
theorem c4_witness :
    Price.new_spot 0 spotMetaEx = some (Price.spot 0 spotMetaEx) ∧
    Price.new_perp 0 btcPerpMeta = some (Price.perp 0 btcPerpMeta) ∧
    Price.round_price 0 8 3 = Option.none :=
  ⟨c4_zero_sentinel.1 spotMetaEx rfl, c4_zero_sentinel.2.1 btcPerpMeta rfl,
    c4_zero_sentinel.2.2 8 3⟩

/-- C2 counterexample: the constructor stores `103020.0` for the example
input, not `103020.3` as the claim states. -/
theorem c2_counterexample :
    Price.new_perp (103020.32323:ℚ) btcPerpMeta = some (Price.perp 103020 btcPerpMeta) ∧
    Price.new_perp (103020.32323:ℚ) btcPerpMeta ≠ some (Price.perp 103020.3 btcPerpMeta) := by
  refine ⟨new_perp_btc_result, ?_⟩
  rw [new_perp_btc_result]
  intro hcon
  have h1 := Option.some.inj hcon
  injection h1 with h2 h3
  norm_num at h2

/-- C2 (amended): constructing (or updating to) a perpetual Price from the
raw price `103020.32323` with `sz_decimals = 5` stores `103020.0`: the
five-significant-digit rule asks for `max(0, 5 - 5 - 1) = 0` decimal places,
which is tighter than the `6 - 5 = 1` decimal-place cap. -/
theorem c2_rounds_to_whole :
    Price.new_perp (103020.32323:ℚ) btcPerpMeta = some (Price.perp 103020 btcPerpMeta) ∧
    Price.update_price (Price.perp 0 btcPerpMeta) (103020.32323:ℚ) =
      some (Price.perp 103020 btcPerpMeta) := by
  refine ⟨new_perp_btc_result, ?_⟩
  simp only [Price.update_price]
  rw [show Meta.get_sz_decimals btcPerpMeta = 5 from rfl, round_price_btc_result]
  rfl

/-- C5 counterexample: with `p = 0.04`, `c = 6`, `s = 6` the decimal-place
cap `6 - 6 = 0` collapses the price to the integer `0.0`, and re-rounding
that stored `0.0` aborts in checked builds (the `i32` overflow after the
saturating cast of `log10(0)`) instead of returning `0.0`, so idempotence
fails as literally stated. -/
theorem c5_counterexample :
    Price.round_price (0.04:ℚ) 6 6 = some 0 ∧
    Price.round_price (0:ℚ) 6 6 = Option.none ∧
    Price.round_price (0:ℚ) 6 6 ≠ some 0 := by
  refine ⟨?_, round_price_zero 6 6, ?_⟩
  · rw [round_price_eq_some (by omega) (by norm_num), abs_of_pos (by norm_num),
      int_log10_p04]
    show some (roundToDecimals (0.04:ℚ) 0) = some 0
    unfold roundToDecimals
    rw [round_eq]
    norm_num
  · rw [round_price_zero]
    exact fun hcon => Option.noConfusion hcon

/-- C5 witness: the theorem applied at `p = 2.718281`, `c = 6`, `s = 1`,
whose rounding is `2.7183` (five significant digits). -/
theorem c5_witness :
    0 < (2.718281:ℚ) ∧ (2.7183:ℚ) ≠ 0 ∧
    Price.round_price (2.7183:ℚ) 6 1 = some 2.7183 := by
  have hEval : Price.round_price (2.718281:ℚ) 6 1 = some 2.7183 := by
    rw [round_price_eq_some (by omega) (by norm_num), abs_of_pos (by norm_num), int_log10_e]
    show some (roundToDecimals (2.718281:ℚ) 4) = some 2.7183
    unfold roundToDecimals
    rw [round_eq]
    norm_num
  exact ⟨by norm_num, by norm_num,
    c5_round_idempotent 2.718281 2.7183 6 1 (by norm_num) (by norm_num) hEval⟩

/-- Perp metadata whose `sz_decimals` exceeds the perpetual cap of 6. -/
def overMeta : Meta := Meta.perp "BAD" 9 10 Option.none Option.none

/-- C9: `round_price` is total only under `sz_decimals ≤ max_decimals` (and
a nonzero raw price, the zero sentinel being a separate abort): when the
instrument's `sz_decimals` exceeds the market-type cap (6 for perpetual, 8
for spot), the `u16` subtraction underflows (abort in checked builds,
`Option.none` in the model) for constructing with a nonzero raw price and
for updating. -/
theorem c9_round_price_underflow :
    (∀ (p : ℚ) (c s : ℕ), s ≤ c → p ≠ 0 → (Price.round_price p c s).isSome = true) ∧
    (∀ (p : ℚ) (c s : ℕ), c < s → Price.round_price p c s = Option.none) ∧
    (∀ (p : ℚ) (meta : Meta), meta.is_perp = true → 6 < meta.get_sz_decimals → p ≠ 0 →
      Price.new_perp p meta = Option.none) ∧
    (∀ (p : ℚ) (meta : Meta), meta.is_spot = true → 8 < meta.get_sz_decimals → p ≠ 0 →
      Price.new_spot p meta = Option.none) ∧
    (∀ (v new_price : ℚ) (meta : Meta), 6 < meta.get_sz_decimals →
      Price.update_price (Price.perp v meta) new_price = Option.none) ∧
    (∀ (v new_price : ℚ) (meta : Meta), 8 < meta.get_sz_decimals →
      Price.update_price (Price.spot v meta) new_price = Option.none) := by
  have hnone : ∀ (p : ℚ) (c s : ℕ), c < s → Price.round_price p c s = Option.none := by
    intro p c s hcs
    rw [Price.round_price, if_neg (by omega)]
  refine ⟨?_, hnone, ?_, ?_, ?_, ?_⟩
  · intro p c s hs hp
    rw [round_price_eq_some hs hp]
    rfl
  · intro p meta hperp hsz hp
    simp only [Price.new_perp]
    rw [if_pos hperp, if_neg hp, hnone p 6 _ (by omega)]
    rfl
  · intro p meta hspot hsz hp
    simp only [Price.new_spot]
    rw [if_pos hspot, if_neg hp, hnone p 8 _ (by omega)]
    rfl
  · intro v new_price meta hsz
    simp only [Price.update_price]
    rw [hnone new_price 6 _ (by omega)]
    rfl
  · intro v new_price meta hsz
    simp only [Price.update_price]
    rw [hnone new_price 8 _ (by omega)]
    rfl

/-- C9 witness: the theorem at concrete inputs (`overMeta` has
`sz_decimals = 9 > 6`). -/
theorem c9_witness :
    (Price.round_price (5:ℚ) 6 2).isSome = true ∧
    Price.round_price (5:ℚ) 2 6 = Option.none ∧
    Price.new_perp (5:ℚ) overMeta = Option.none ∧
    Price.update_price (Price.perp 0 overMeta) 5 = Option.none :=
  ⟨c9_round_price_underflow.1 5 6 2 (by omega) (by norm_num),
    c9_round_price_underflow.2.1 5 2 6 (by omega),
    c9_round_price_underflow.2.2.1 5 overMeta rfl (by decide) (by norm_num),
    c9_round_price_underflow.2.2.2.2.1 0 5 overMeta (by decide)⟩

/-- C6: `update_price` on a spot (resp. perpetual) price stores exactly the
result of `round_price` with the variant cap 8 (resp. 6) and the metadata's
size decimals; whenever it yields a value, both the variant tag and the
metadata are unchanged, and `from_new_price` also never changes the
metadata. -/
theorem c6_update_replaces_and_preserves_meta :
    (∀ (v new_price r : ℚ) (meta : Meta),
      Price.round_price new_price 8 meta.get_sz_decimals = some r →
      Price.update_price (Price.spot v meta) new_price = some (Price.spot r meta)) ∧
    (∀ (v new_price r : ℚ) (meta : Meta),
      Price.round_price new_price 6 meta.get_sz_decimals = some r →
      Price.update_price (Price.perp v meta) new_price = some (Price.perp r meta)) ∧
    (∀ (p q : Price) (new_price : ℚ), Price.update_price p new_price = some q →
      q.tag = p.tag ∧ q.get_meta = p.get_meta) ∧
    (∀ (p q : Price) (new_price : ℚ), Price.from_new_price p new_price = some q →
      q.get_meta = p.get_meta) := by
  refine ⟨?_, ?_, ?_, ?_⟩
  · intro v new_price r meta h
    simp only [Price.update_price]
    rw [h]
    rfl
  · intro v new_price r meta h
    simp only [Price.update_price]
    rw [h]
    rfl
  · intro p q new_price h
    cases p with
    | none =>
        simp only [Price.update_price] at h
        rw [← Option.some.inj h]
        exact ⟨rfl, rfl⟩
    | spot v meta =>
        simp only [Price.update_price] at h
        rcases hopt : Price.round_price new_price 8 meta.get_sz_decimals with _ | r
        · rw [hopt, Option.map_none'] at h
          exact Option.noConfusion h
        · rw [hopt, Option.map_some'] at h
          rw [← Option.some.inj h]
          exact ⟨rfl, rfl⟩
    | perp v meta =>
        simp only [Price.update_price] at h
        rcases hopt : Price.round_price new_price 6 meta.get_sz_decimals with _ | r
        · rw [hopt, Option.map_none'] at h
          exact Option.noConfusion h
        · rw [hopt, Option.map_some'] at h
          rw [← Option.some.inj h]
          exact ⟨rfl, rfl⟩
  · intro p q new_price h
    cases p with
    | none =>
        simp only [Price.from_new_price] at h
        rw [← Option.some.inj h]
    | spot v meta =>
        simp only [Price.from_new_price, Price.new_spot] at h
        split at h
        · split at h
          · rw [← Option.some.inj h]
            rfl
          · rcases hopt : Price.round_price new_price 8 meta.get_sz_decimals with _ | r
            · rw [hopt, Option.map_none'] at h
              exact Option.noConfusion h
            · rw [hopt, Option.map_some'] at h
              rw [← Option.some.inj h]
              rfl
        · exact Option.noConfusion h
    | perp v meta =>
        simp only [Price.from_new_price, Price.new_perp] at h
        split at h
        · split at h
          · rw [← Option.some.inj h]
            rfl
          · rcases hopt : Price.round_price new_price 6 meta.get_sz_decimals with _ | r
            · rw [hopt, Option.map_none'] at h
              exact Option.noConfusion h
            · rw [hopt, Option.map_some'] at h
              rw [← Option.some.inj h]
              rfl
        · exact Option.noConfusion h

/-- C6 witness: updating a spot price at a concrete input. -/
theorem c6_witness :
    Price.update_price (Price.spot 1 spotMetaEx) 2 = some (Price.spot 2 spotMetaEx) := by
  have hrp : Price.round_price (2:ℚ) 8 3 = some 2 := by
    rw [round_price_eq_some (by omega) (by norm_num), abs_of_pos (by norm_num), int_log10_two]
    show some (roundToDecimals (2:ℚ) 4) = some 2
    rw [roundToDecimals_eq_self 20000 (by norm_num)]
  exact c6_update_replaces_and_preserves_meta.1 1 2 2 spotMetaEx hrp

/-- C3 counterexample: the classifier maps a `NoData` message to an error,
not to an empty batch. -/
theorem c3_counterexample :
    Prices.get_all_prices (some Message.NoData) = Except.error "No data found" ∧
    Prices.get_all_prices (some Message.NoData) ≠ Except.ok [] :=
  ⟨rfl, fun hcon => nomatch hcon⟩

/-- C3 (amended): a `NoData` message makes `get_all_prices` return an error
(like `HyperliquidError`), which the `?` in the streaming loop propagates,
ending the pipeline iteration and reaching the supervisor restart path; an
unrecognized message or a closed channel is what yields the empty batch and
a no-op tick. -/
theorem c3_nodata_ends_iteration :
    (∀ (upd : List (String × Price) → List (String × ℚ) → List (String × Price))
        (table : List (String × Price)),
      stepStreaming upd (some Message.NoData) table = Except.error "No data found") ∧
    (∀ err : String, Prices.get_all_prices (some (Message.HyperliquidError err)) =
      Except.error "Hyperliquid error found") ∧
    (∀ desc : String, Prices.get_all_prices (some (Message.Other desc)) = Except.ok []) ∧
    (∀ (upd : List (String × Price) → List (String × ℚ) → List (String × Price))
        (table : List (String × Price)) (desc : String),
      stepStreaming upd (some (Message.Other desc)) table = Except.ok (upd table [])) ∧
    (∀ (upd : List (String × Price) → List (String × ℚ) → List (String × Price))
        (table : List (String × Price)),
      stepStreaming upd Option.none table = Except.ok (upd table [])) :=
  ⟨fun _ _ => rfl, fun _ => rfl, fun _ => rfl, fun _ _ _ => rfl, fun _ _ => rfl⟩

/-- C7 counterexample: on the `None` variant the asset-denominated size is
the finite value `0.0` (because `get_true_size` short-circuits on `None`),
not a non-finite value. -/
theorem c7_counterexample :
    Price.get_asset_denom_size Price.none 100 = FVal.finite 0 ∧
    (Price.get_asset_denom_size Price.none 100).isFinite = true :=
  ⟨rfl, rfl⟩

/-- C7 (amended): `asset_denominated_size` computes
`true_size(usdc_size / value())`; on a spot/perp price whose stored value is
the `0.0` sentinel and a positive notional it yields `+inf`; on the `None`
variant it yields the finite value `0.0` (a silently wrong size rather than
a non-finite one); with a nonzero stored value it is the quotient rounded
to the instrument's size decimals. -/
theorem c7_asset_denom_size :
    (∀ (meta : Meta) (size : ℚ), 0 < size →
      Price.get_asset_denom_size (Price.spot 0 meta) size = FVal.posInf) ∧
    (∀ (meta : Meta) (size : ℚ), 0 < size →
      Price.get_asset_denom_size (Price.perp 0 meta) size = FVal.posInf) ∧
    (∀ size : ℚ, Price.get_asset_denom_size Price.none size = FVal.finite 0) ∧
    (∀ (v : ℚ) (meta : Meta) (size : ℚ), v ≠ 0 →
      Price.get_asset_denom_size (Price.spot v meta) size =
        FVal.finite (roundToDecimals (size / v) meta.get_sz_decimals)) ∧
    (∀ (v : ℚ) (meta : Meta) (size : ℚ), v ≠ 0 →
      Price.get_asset_denom_size (Price.perp v meta) size =
        FVal.finite (roundToDecimals (size / v) meta.get_sz_decimals)) := by
  refine ⟨?_, ?_, fun _ => rfl, ?_, ?_⟩
  · intro meta size hsz
    simp [Price.get_asset_denom_size, Price.get_value, fdiv, Price.get_true_size,
      hsz, ne_of_gt hsz]
  · intro meta size hsz
    simp [Price.get_asset_denom_size, Price.get_value, fdiv, Price.get_true_size,
      hsz, ne_of_gt hsz]
  · intro v meta size hv
    simp [Price.get_asset_denom_size, Price.get_value, fdiv, Price.get_true_size, hv]
  · intro v meta size hv
    simp [Price.get_asset_denom_size, Price.get_value, fdiv, Price.get_true_size, hv]

/-- C7 witness: the amended statement at a concrete input. -/
theorem c7_witness :
    0 < (100:ℚ) ∧ Price.get_asset_denom_size (Price.perp 0 btcPerpMeta) 100 = FVal.posInf :=
  ⟨by norm_num, c7_asset_denom_size.2.1 btcPerpMeta 100 (by norm_num)⟩

/-- C8: a book-snapshot message replaces the bid and ask sequences wholesale
with exactly the well-formed levels of the message, in delivered order
(levels with an unparsable price or size string are dropped, not defaulted),
independently of the previous book contents, and leaves the coin unchanged. -/
theorem c8_orderbook_snapshot_replacement (ob : Orderbook) (bidLs askLs : List RawLevel) :
    (processL2Book ob bidLs askLs).bids =
      bidLs.filterMap (fun l =>
        match l.px, l.sz with
        | some p, some s => some (OrderbookLevel.mk p s)
        | _, _ => Option.none) ∧
    (processL2Book ob bidLs askLs).asks =
      askLs.filterMap (fun l =>
        match l.px, l.sz with
        | some p, some s => some (OrderbookLevel.mk p s)
        | _, _ => Option.none) ∧
    (processL2Book ob bidLs askLs).coin = ob.coin := by
  refine ⟨?_, ?_, rfl⟩
  all_goals
    simp only [processL2Book, Orderbook.update_from_stream, parseLevels, List.map_filterMap]
    congr 1
    funext l
    rcases l with ⟨px, sz⟩
    cases px <;> cases sz <;> rfl

lemma int_log10_123456 : Int.log 10 (123456:ℚ) = 5 :=
  int_log10_eq 5 (by norm_num) (by norm_num) (by norm_num)

/-- C1 counterexample: at `p = 123456`, `c = 6`, `s = 0` the rounding keeps
all six integer digits (`needed` clamps to 0 decimal places), so the result
has six significant digits, contradicting the claimed five-significant-digit
bound. -/
theorem c1_counterexample :
    Price.round_price (123456:ℚ) 6 0 = some 123456 ∧
    ¬ HasAtMostFiveSigDigits (123456:ℚ) := by
  constructor
  · rw [round_price_eq_some (by omega) (by norm_num), abs_of_pos (by norm_num),
      int_log10_123456]
    show some (roundToDecimals (123456:ℚ) 0) = some 123456
    rw [roundToDecimals_eq_self 123456 (by norm_num)]
  · rintro ⟨k, e, hke, hk⟩
    have h100 : (10:ℕ) ^ 5 = 100000 := by norm_num
    rcases le_or_lt 0 e with he | he
    · have hcastpow : ((10:ℚ)) ^ e = ((10 ^ e.toNat : ℤ) : ℚ) := zpow_toNat_cast he
      have hz : (123456:ℤ) = k * 10 ^ e.toNat := by
        have h2 : (123456:ℚ) = ((k * 10 ^ e.toNat : ℤ) : ℚ) := by
          rw [hke, hcastpow]
          push_cast
          ring
        exact_mod_cast h2
      rcases Nat.eq_zero_or_pos e.toNat with h0 | hpos
      · rw [h0, pow_zero, mul_one] at hz
        omega
      · have hdvd : (10:ℤ) ∣ 123456 := by
          rw [hz]
          exact Dvd.dvd.mul_left (dvd_pow_self 10 (by omega)) k
        norm_num at hdvd
    · have hk_eq : (k:ℚ) = 123456 * (10:ℚ) ^ (-e) := by
        calc (k:ℚ) = (k:ℚ) * (((10:ℚ) ^ e) * (10:ℚ) ^ (-e)) := by
              rw [← zpow_add₀ (by norm_num : (10:ℚ) ≠ 0)]
              simp
          _ = ((k:ℚ) * (10:ℚ) ^ e) * (10:ℚ) ^ (-e) := by ring
          _ = 123456 * (10:ℚ) ^ (-e) := by rw [← hke]
      have hten : (10:ℚ) ≤ (10:ℚ) ^ (-e) := by
        have h1 : ((10:ℚ)) ^ (1:ℤ) ≤ (10:ℚ) ^ (-e) :=
          zpow_le_zpow_right₀ (by norm_num) (by omega)
        rwa [zpow_one] at h1
      have hq : (1234560:ℚ) ≤ (k:ℚ) := by
        rw [hk_eq]
        calc (1234560:ℚ) = 123456 * 10 := by norm_num
          _ ≤ 123456 * (10:ℚ) ^ (-e) :=
            mul_le_mul_of_nonneg_left hten (by norm_num)
      have hkz : (1234560:ℤ) ≤ k := by exact_mod_cast hq
      omega

/-- C1 (amended): for `p > 0` and `s ≤ c`, `round_price` rounds `p` to
exactly `min(max(0, 5 - floor(log10 p) - 1), c - s)` decimal places; the
result always has at most `c - s` decimal places, and it has at most five
significant digits whenever `p < 10^5` (for `p ≥ 10^5` the clamping of the
needed decimal places at zero leaves all integer digits in place, which can
exceed five significant digits). -/
theorem c1_round_decimal_places (p : ℚ) (c s : ℕ) (hp : 0 < p) (hs : s ≤ c) :
    ∃ r, Price.round_price p c s = some r ∧
      r = roundToDecimals p ((min (max 0 (5 - Int.log 10 p - 1)) ((c:ℤ) - (s:ℤ))).toNat) ∧
      (∃ k : ℤ, r * 10 ^ (c - s) = (k : ℚ)) ∧
      (p < 10 ^ 5 → HasAtMostFiveSigDigits r) := by
  have hcast : (((c - s : ℕ)) : ℤ) = (c:ℤ) - (s:ℤ) := by omega
  obtain ⟨m, hm⟩ : ∃ t : ℤ, Int.log 10 p = t := ⟨_, rfl⟩
  refine ⟨roundToDecimals p ((min (max 0 (5 - Int.log 10 p - 1)) (((c - s : ℕ)):ℤ)).toNat),
    ?_, ?_, ?_, ?_⟩
  · rw [round_price_eq_some hs (ne_of_gt hp), abs_of_pos hp]
  · rw [hcast]
  · -- at most c - s decimal places
    rw [hm]
    have hdz_nonneg : (0:ℤ) ≤ min (max 0 (5 - m - 1)) (((c - s : ℕ)):ℤ) := by omega
    generalize hd : (min (max 0 (5 - m - 1)) (((c - s : ℕ)):ℤ)).toNat = d
    have hdcast : (d:ℤ) = min (max 0 (5 - m - 1)) (((c - s : ℕ)):ℤ) := by
      rw [← hd]
      exact Int.toNat_of_nonneg hdz_nonneg
    have hdn : d ≤ c - s := by omega
    refine ⟨round (p * 10 ^ d) * 10 ^ (c - s - d), ?_⟩
    conv_lhs => rw [show (c - s : ℕ) = d + (c - s - d) from by omega, pow_add, ← mul_assoc,
      roundToDecimals_mul_pow]
    push_cast
    ring
  · -- at most five significant digits when p < 10^5
    intro hp5
    rw [hm]
    have hp5z : p < (10:ℚ) ^ (5:ℤ) := by
      have hpow5 : ((10:ℚ) ^ (5:ℕ)) = (10:ℚ) ^ (5:ℤ) := by
        rw [ten_pow_eq_zpow]
        norm_num
      rw [← hpow5]
      exact_mod_cast hp5
    have hm4 : m ≤ 4 := by
      have hlt : Int.log 10 p < 5 := (Int.lt_zpow_iff_log_lt (by norm_num) hp).mp hp5z
      omega
    have hdz_nonneg : (0:ℤ) ≤ min (max 0 (5 - m - 1)) (((c - s : ℕ)):ℤ) := by omega
    generalize hd : (min (max 0 (5 - m - 1)) (((c - s : ℕ)):ℤ)).toNat = d
    have hdcast : (d:ℤ) = min (max 0 (5 - m - 1)) (((c - s : ℕ)):ℤ) := by
      rw [← hd]
      exact Int.toNat_of_nonneg hdz_nonneg
    obtain ⟨ndn, hndn⟩ : ∃ t : ℕ, (t:ℤ) = 4 - m :=
      ⟨(4 - m).toNat, Int.toNat_of_nonneg (by omega)⟩
    have hd_le : d ≤ ndn := by omega
    have hkq : ((round (p * 10 ^ d) * 10 ^ (ndn - d) : ℤ) : ℚ)
        = roundToDecimals p d * 10 ^ ndn := by
      conv_rhs => rw [show ndn = d + (ndn - d) from by omega, pow_add, ← mul_assoc,
        roundToDecimals_mul_pow]
      push_cast
      ring
    refine ⟨round (p * 10 ^ d) * 10 ^ (ndn - d), -(ndn:ℤ), ?_, ?_⟩
    · rw [hkq, ten_pow_eq_zpow, mul_assoc, ← zpow_add₀ (by norm_num : (10:ℚ) ≠ 0)]
      simp
    · have hpow_nonneg : (0:ℚ) ≤ 10 ^ ndn := by positivity
      have hub : roundToDecimals p d * 10 ^ ndn ≤ (100000:ℚ) := by
        rcases roundToDecimals_mag hp d with h0 | ⟨hlo, hhi⟩
        · rw [h0]
          norm_num
        · rw [hm] at hhi
          calc roundToDecimals p d * 10 ^ ndn
              ≤ (10:ℚ) ^ (m + 1) * 10 ^ ndn := mul_le_mul_of_nonneg_right hhi hpow_nonneg
            _ = (10:ℚ) ^ (m + 1 + (ndn:ℤ)) := by
                rw [ten_pow_eq_zpow, ← zpow_add₀ (by norm_num : (10:ℚ) ≠ 0)]
            _ = (10:ℚ) ^ (5:ℤ) := by
                congr 1
                omega
            _ = 100000 := by norm_num
      have hlb : (0:ℚ) ≤ roundToDecimals p d * 10 ^ ndn :=
        mul_nonneg (roundToDecimals_nonneg (le_of_lt hp) _) hpow_nonneg
      have h1z : (round (p * 10 ^ d) * 10 ^ (ndn - d) : ℤ) ≤ 100000 := by
        have h1 : ((round (p * 10 ^ d) * 10 ^ (ndn - d) : ℤ) : ℚ) ≤ (100000:ℚ) := by
          rw [hkq]
          exact hub
        exact_mod_cast h1
      have h0z : (0:ℤ) ≤ round (p * 10 ^ d) * 10 ^ (ndn - d) := by
        have h0 : (0:ℚ) ≤ ((round (p * 10 ^ d) * 10 ^ (ndn - d) : ℤ) : ℚ) := by
          rw [hkq]
          exact hlb
        exact_mod_cast h0
      have h100 : (10:ℕ) ^ 5 = 100000 := by norm_num
      omega

/-- C1 witness: the amended statement at `p = 2`, `c = 8`, `s = 3`. -/
theorem c1_witness :
    0 < (2:ℚ) ∧ (3:ℕ) ≤ 8 ∧
    (∃ r, Price.round_price (2:ℚ) 8 3 = some r ∧
      r = roundToDecimals 2 ((min (max 0 (5 - Int.log 10 (2:ℚ) - 1)) ((8:ℤ) - (3:ℤ))).toNat) ∧
      (∃ k : ℤ, r * 10 ^ (8 - 3) = (k : ℚ)) ∧
      ((2:ℚ) < 10 ^ 5 → HasAtMostFiveSigDigits r)) :=
  ⟨by norm_num, by omega, c1_round_decimal_places 2 8 3 (by norm_num) (by omega)⟩
